import Mathlib

/-!
Verification of the CatchAI PDF question-answering backend.

The development shallowly embeds the core functions of the repository
(`backend/app/qa.py`, `backend/app/ingestion.py`, `backend/app/store.py`,
`backend/app/main.py`, `backend/app/config.py`) as executable Lean
definitions and proves the specified properties about them.  External
collaborators (the Chroma vector store, the embedding and completion
providers, the PDF text extractor and the langchain text splitter) are
modelled as function parameters or explicit event traces, exactly at the
boundary where the repository's own code hands off to them.
-/

namespace CatchAI

/-! ## Retrieval candidates (`backend/app/qa.py`)

`retrieve_context_balanced` converts the documents returned by the
similarity search into dictionaries with the fields below (each read with
`metadata.get`, hence optional).  The similarity search itself is external;
the embedding starts from the converted candidate list `cands`. -/

/-- One retrieval candidate, mirroring the dict built in
`retrieve_context_balanced` (qa.py lines 42-49). -/
structure Cand where
  text : String
  source : Option String
  pages : Option String
  page : Option Nat
  chunk_id : Option Nat
  doc_hash : Option String
deriving DecidableEq

/-- Document identity key `(c["source"], c["doc_hash"])` (qa.py line 54). -/
def docKey (c : Cand) : Option String × Option String :=
  (c.source, c.doc_hash)

/-- Chunk identity key `(c["source"], c["doc_hash"], c["chunk_id"])`
(qa.py lines 64, 75). -/
def chunkKey (c : Cand) : Option String × Option String × Option Nat :=
  (c.source, c.doc_hash, c.chunk_id)

/-- One grouping step of `by_doc.setdefault(key, []).append(c)`
(qa.py line 55): append `c` to its group if the key is present,
otherwise add a fresh group at the end (Python dicts preserve
insertion order of keys). -/
def addCand (gs : List ((Option String × Option String) × List Cand)) (c : Cand) :
    List ((Option String × Option String) × List Cand) :=
  match gs with
  | [] => [(docKey c, [c])]
  | g :: rest =>
    if g.1 = docKey c then (g.1, g.2 ++ [c]) :: rest else g :: addCand rest c

/-- The `by_doc` grouping loop (qa.py lines 52-55). -/
def by_doc (cands : List Cand) : List ((Option String × Option String) × List Cand) :=
  cands.foldl addCand []

/-- The balanced round: up to `per_doc` candidates from every group,
in group insertion order (qa.py lines 58-60). -/
def balancedRound (cands : List Cand) (perDoc : Nat) : List Cand :=
  (by_doc cands).flatMap (fun g => g.2.take perDoc)

/-- `rest`: candidates whose chunk key was not taken by the balanced
round (qa.py lines 64-65). -/
def restOf (cands bal : List Cand) : List Cand :=
  cands.filter (fun c => decide (chunkKey c ∉ bal.map chunkKey))

/-- `final = balanced[:k]`, backfilled from `rest` up to `k`
(qa.py lines 67-69). -/
def finalOf (k : Nat) (bal rest : List Cand) : List Cand :=
  if (bal.take k).length < k then
    bal.take k ++ rest.take (k - (bal.take k).length)
  else bal.take k

/-- The final safety dedup loop over `final`, keeping the first
occurrence of every chunk key (qa.py lines 72-79). -/
def dedupGo (seen : List (Option String × Option String × Option Nat)) :
    List Cand → List Cand
  | [] => []
  | c :: cs =>
    if chunkKey c ∈ seen then dedupGo seen cs
    else c :: dedupGo (chunkKey c :: seen) cs

/-- `retrieve_context_balanced` (qa.py lines 19-81), from the converted
candidate list onward: balanced round, backfill, dedup, truncate to `k`. -/
def retrieve_context_balanced (cands : List Cand) (k perDoc : Nat) : List Cand :=
  let bal := balancedRound cands perDoc
  let rest := restOf cands bal
  let final := finalOf k bal rest
  (dedupGo [] final).take k

/-! ### Dedup lemmas -/

theorem dedupGo_key_not_seen (seen : List (Option String × Option String × Option Nat))
    (l : List Cand) : ∀ c ∈ dedupGo seen l, chunkKey c ∉ seen := by
  induction l generalizing seen with
  | nil => intro c hc; simp [dedupGo] at hc
  | cons c0 cs ih =>
    intro c hc
    by_cases h0 : chunkKey c0 ∈ seen
    · rw [dedupGo, if_pos h0] at hc
      exact ih seen c hc
    · rw [dedupGo, if_neg h0] at hc
      rcases List.mem_cons.mp hc with rfl | hmem
      · exact h0
      · have := ih (chunkKey c0 :: seen) c hmem
        intro hs
        exact this (List.mem_cons_of_mem _ hs)

theorem dedupGo_keys_nodup (seen : List (Option String × Option String × Option Nat))
    (l : List Cand) : ((dedupGo seen l).map chunkKey).Nodup := by
  induction l generalizing seen with
  | nil => simp [dedupGo]
  | cons c0 cs ih =>
    by_cases h0 : chunkKey c0 ∈ seen
    · rw [dedupGo, if_pos h0]; exact ih seen
    · rw [dedupGo, if_neg h0]
      refine List.nodup_cons.mpr ⟨?_, ih (chunkKey c0 :: seen)⟩
      intro hmem
      rcases List.mem_map.mp hmem with ⟨c, hc, hck⟩
      have := dedupGo_key_not_seen (chunkKey c0 :: seen) cs c hc
      exact this (hck ▸ List.mem_cons_self _ _)

theorem dedupGo_length_le (seen : List (Option String × Option String × Option Nat))
    (l : List Cand) : (dedupGo seen l).length ≤ l.length := by
  induction l generalizing seen with
  | nil => simp [dedupGo]
  | cons c0 cs ih =>
    by_cases h0 : chunkKey c0 ∈ seen
    · rw [dedupGo, if_pos h0]
      exact Nat.le_succ_of_le (ih seen)
    · rw [dedupGo, if_neg h0]
      simpa using Nat.succ_le_succ (ih (chunkKey c0 :: seen))

/-- C1: the balanced retriever never returns two candidates with the same
`(source, doc_hash, chunk_id)` triple, and it returns at most `k`
candidates, for every input candidate list (duplicates included). -/
theorem retrieve_context_balanced_nodup_and_le (cands : List Cand) (k perDoc : Nat) :
    ((retrieve_context_balanced cands k perDoc).map chunkKey).Nodup ∧
      (retrieve_context_balanced cands k perDoc).length ≤ k := by
  have h1 : retrieve_context_balanced cands k perDoc
      = (dedupGo [] (finalOf k (balancedRound cands perDoc)
          (restOf cands (balancedRound cands perDoc)))).take k := rfl
  rw [h1]
  constructor
  · rw [List.map_take]
    exact (dedupGo_keys_nodup [] _).sublist (List.take_sublist _ _)
  · simp [List.length_take]

/-! ### Grouping invariants for `by_doc` -/

theorem addCand_fst_mem (gs : List ((Option String × Option String) × List Cand))
    (c : Cand) : docKey c ∈ (addCand gs c).map Prod.fst := by
  induction gs with
  | nil => simp [addCand]
  | cons g rest ih =>
    by_cases h : g.1 = docKey c
    · simp [addCand, h]
    · simp only [addCand, if_neg h, List.map_cons]
      exact List.mem_cons_of_mem _ ih

theorem addCand_fst_super (gs : List ((Option String × Option String) × List Cand))
    (c : Cand) : ∀ x ∈ gs.map Prod.fst, x ∈ (addCand gs c).map Prod.fst := by
  induction gs with
  | nil => simp
  | cons g rest ih =>
    intro x hx
    by_cases h : g.1 = docKey c
    · simpa [addCand, h] using hx
    · simp only [addCand, if_neg h, List.map_cons, List.mem_cons] at hx ⊢
      rcases hx with rfl | hx
      · exact Or.inl rfl
      · exact Or.inr (ih x hx)

theorem addCand_fst_sub (gs : List ((Option String × Option String) × List Cand))
    (c : Cand) : ∀ x ∈ (addCand gs c).map Prod.fst,
      x ∈ gs.map Prod.fst ∨ x = docKey c := by
  induction gs with
  | nil => simp [addCand]
  | cons g rest ih =>
    intro x hx
    by_cases h : g.1 = docKey c
    · simp only [addCand, if_pos h, List.map_cons, List.mem_cons] at hx
      rcases hx with rfl | hx
      · exact Or.inl (List.mem_cons_self _ _)
      · exact Or.inl (List.mem_cons_of_mem _ hx)
    · simp only [addCand, if_neg h, List.map_cons, List.mem_cons] at hx
      rcases hx with rfl | hx
      · exact Or.inl (List.mem_cons_self _ _)
      · rcases ih x hx with hmem | rfl
        · exact Or.inl (List.mem_cons_of_mem _ hmem)
        · exact Or.inr rfl

theorem addCand_fst_nodup (gs : List ((Option String × Option String) × List Cand))
    (c : Cand) (h : (gs.map Prod.fst).Nodup) : ((addCand gs c).map Prod.fst).Nodup := by
  induction gs with
  | nil => simp [addCand]
  | cons g rest ih =>
    rw [List.map_cons, List.nodup_cons] at h
    by_cases hg : g.1 = docKey c
    · simpa [addCand, hg, List.nodup_cons] using h
    · simp only [addCand, if_neg hg, List.map_cons, List.nodup_cons]
      refine ⟨?_, ih h.2⟩
      intro hmem
      rcases addCand_fst_sub rest c g.1 hmem with hmem' | heq
      · exact h.1 hmem'
      · exact hg heq

theorem addCand_ne_nil (gs : List ((Option String × Option String) × List Cand))
    (c : Cand) (h : ∀ g ∈ gs, g.2 ≠ []) : ∀ g ∈ addCand gs c, g.2 ≠ [] := by
  induction gs with
  | nil => intro g hg; simp [addCand] at hg; simp [hg]
  | cons g0 rest ih =>
    intro g hg
    by_cases hk : g0.1 = docKey c
    · simp only [addCand, if_pos hk, List.mem_cons] at hg
      rcases hg with rfl | hg
      · simp
      · exact h g (List.mem_cons_of_mem _ hg)
    · simp only [addCand, if_neg hk, List.mem_cons] at hg
      rcases hg with rfl | hg
      · exact h g (List.mem_cons_self _ _)
      · exact ih (fun g' hg' => h g' (List.mem_cons_of_mem _ hg')) g hg

theorem addCand_member_key (gs : List ((Option String × Option String) × List Cand))
    (c : Cand) (h : ∀ g ∈ gs, ∀ x ∈ g.2, docKey x = g.1) :
    ∀ g ∈ addCand gs c, ∀ x ∈ g.2, docKey x = g.1 := by
  induction gs with
  | nil =>
    intro g hg x hx
    simp [addCand] at hg
    subst hg
    simp at hx
    simp [hx]
  | cons g0 rest ih =>
    intro g hg x hx
    by_cases hk : g0.1 = docKey c
    · simp only [addCand, if_pos hk, List.mem_cons] at hg
      rcases hg with rfl | hg
      · simp only at hx
        rcases List.mem_append.mp hx with hx' | hx'
        · exact h g0 (List.mem_cons_self _ _) x hx'
        · simp at hx'
          simp [hx', hk]
      · exact h g (List.mem_cons_of_mem _ hg) x hx
    · simp only [addCand, if_neg hk, List.mem_cons] at hg
      rcases hg with rfl | hg
      · exact h g (List.mem_cons_self _ _) x hx
      · exact ih (fun g' hg' => h g' (List.mem_cons_of_mem _ hg')) g hg x hx

theorem foldl_addCand_fst_super (cands : List Cand)
    (gs : List ((Option String × Option String) × List Cand)) :
    ∀ x ∈ gs.map Prod.fst, x ∈ (cands.foldl addCand gs).map Prod.fst := by
  induction cands generalizing gs with
  | nil => simp
  | cons c cs ih =>
    intro x hx
    rw [List.foldl_cons]
    exact ih (addCand gs c) x (addCand_fst_super gs c x hx)

theorem by_doc_key_present (cands : List Cand) (c : Cand) (h : c ∈ cands) :
    docKey c ∈ (by_doc cands).map Prod.fst := by
  suffices hgen : ∀ gs, docKey c ∈ (cands.foldl addCand gs).map Prod.fst from hgen []
  induction cands with
  | nil => cases h
  | cons c0 cs ih =>
    intro gs
    rw [List.foldl_cons]
    rcases List.mem_cons.mp h with rfl | hmem
    · exact foldl_addCand_fst_super cs (addCand gs c) _ (addCand_fst_mem gs c)
    · exact ih hmem (addCand gs c0)

theorem by_doc_keys_nodup (cands : List Cand) : ((by_doc cands).map Prod.fst).Nodup := by
  suffices hgen : ∀ gs, (gs.map Prod.fst).Nodup →
      ((cands.foldl addCand gs).map Prod.fst).Nodup from hgen [] (by simp)
  induction cands with
  | nil => exact fun gs h => h
  | cons c cs ih =>
    intro gs h
    rw [List.foldl_cons]
    exact ih (addCand gs c) (addCand_fst_nodup gs c h)

theorem by_doc_groups_ne_nil (cands : List Cand) :
    ∀ g ∈ by_doc cands, g.2 ≠ [] := by
  suffices hgen : ∀ gs, (∀ g ∈ gs, g.2 ≠ []) →
      ∀ g ∈ cands.foldl addCand gs, g.2 ≠ [] from hgen [] (by simp)
  induction cands with
  | nil => exact fun gs h => h
  | cons c cs ih =>
    intro gs h
    rw [List.foldl_cons]
    exact ih (addCand gs c) (addCand_ne_nil gs c h)

theorem by_doc_member_key (cands : List Cand) :
    ∀ g ∈ by_doc cands, ∀ x ∈ g.2, docKey x = g.1 := by
  suffices hgen : ∀ gs, (∀ g ∈ gs, ∀ x ∈ g.2, docKey x = g.1) →
      ∀ g ∈ cands.foldl addCand gs, ∀ x ∈ g.2, docKey x = g.1 from hgen [] (by simp)
  induction cands with
  | nil => exact fun gs h => h
  | cons c cs ih =>
    intro gs h
    rw [List.foldl_cons]
    exact ih (addCand gs c) (addCand_member_key gs c h)

/-! ### Assembly lemmas for the multi-document guarantee -/

theorem two_mem_two_le {α : Type} {l : List α} {a b : α}
    (ha : a ∈ l) (hb : b ∈ l) (h : a ≠ b) : 2 ≤ l.length := by
  match l with
  | [] => cases ha
  | [x] =>
    simp at ha hb
    exact absurd (ha.trans hb.symm) h
  | x :: y :: t => simp

theorem take_ne_nil_of_pos {α : Type} {l : List α} {p : Nat}
    (hp : 1 ≤ p) (hl : l ≠ []) : l.take p ≠ [] := by
  match l, p with
  | [], _ => exact absurd rfl hl
  | x :: t, 0 => omega
  | x :: t, p + 1 => simp

theorem finalOf_length_le (k : Nat) (bal rest : List Cand) :
    (finalOf k bal rest).length ≤ k := by
  unfold finalOf
  by_cases h : (bal.take k).length < k
  · rw [if_pos h]
    simp [List.length_take]
    omega
  · rw [if_neg h]
    simp [List.length_take]

theorem finalOf_eq_take_append (k : Nat) (bal rest : List Cand) :
    ∃ t, finalOf k bal rest = bal.take k ++ t := by
  unfold finalOf
  by_cases h : (bal.take k).length < k
  · exact ⟨_, if_pos h⟩
  · exact ⟨[], by rw [if_neg h, List.append_nil]⟩

theorem dedupGo_rep (seen : List (Option String × Option String × Option Nat))
    (l : List Cand) : ∀ c ∈ l, chunkKey c ∉ seen →
    ∃ y ∈ dedupGo seen l, chunkKey y = chunkKey c := by
  induction l generalizing seen with
  | nil => intro c hc; cases hc
  | cons c0 cs ih =>
    intro c hc hs
    by_cases h0 : chunkKey c0 ∈ seen
    · rw [dedupGo, if_pos h0]
      rcases List.mem_cons.mp hc with rfl | hmem
      · exact absurd h0 hs
      · exact ih seen c hmem hs
    · rw [dedupGo, if_neg h0]
      by_cases hck : chunkKey c = chunkKey c0
      · exact ⟨c0, List.mem_cons_self _ _, hck.symm⟩
      · have hc' : c ∈ cs := by
          rcases List.mem_cons.mp hc with rfl | hmem
          · exact absurd rfl hck
          · exact hmem
        have hs' : chunkKey c ∉ chunkKey c0 :: seen := by
          intro hmem
          rcases List.mem_cons.mp hmem with heq | hmem'
          · exact hck heq
          · exact hs hmem'
        obtain ⟨y, hy, hyk⟩ := ih (chunkKey c0 :: seen) c hc' hs'
        exact ⟨y, List.mem_cons_of_mem _ hy, hyk⟩

theorem docKey_eq_of_chunkKey_eq {y c : Cand} (h : chunkKey y = chunkKey c) :
    docKey y = docKey c := by
  unfold chunkKey at h
  unfold docKey
  simp only [Prod.mk.injEq] at h ⊢
  exact ⟨h.1, h.2.1⟩

theorem retrieve_eq_dedup (cands : List Cand) (k perDoc : Nat) :
    retrieve_context_balanced cands k perDoc
      = dedupGo [] (finalOf k (balancedRound cands perDoc)
          (restOf cands (balancedRound cands perDoc))) := by
  have hlen : (dedupGo [] (finalOf k (balancedRound cands perDoc)
      (restOf cands (balancedRound cands perDoc)))).length ≤ k :=
    le_trans (dedupGo_length_le _ _) (finalOf_length_le _ _ _)
  exact List.take_of_length_le hlen

/-- C2: if the raw candidate list contains chunks of two documents with
distinct `(source, doc_hash)` keys, `per_doc ≥ 1` and `k ≥ 2*per_doc`, then
the result of `retrieve_context_balanced` contains candidates from at least
two distinct documents. -/
theorem retrieve_context_balanced_multi_doc (cands : List Cand) (k perDoc : Nat)
    (c1 c2 : Cand) (h1 : c1 ∈ cands) (h2 : c2 ∈ cands) (hne : docKey c1 ≠ docKey c2)
    (hp : 1 ≤ perDoc) (hk : 2 * perDoc ≤ k) :
    ∃ d1 ∈ retrieve_context_balanced cands k perDoc,
      ∃ d2 ∈ retrieve_context_balanced cands k perDoc, docKey d1 ≠ docKey d2 := by
  have hk1 := by_doc_key_present cands c1 h1
  have hk2 := by_doc_key_present cands c2 h2
  have hlen2 : 2 ≤ (by_doc cands).length := by
    have := two_mem_two_le hk1 hk2 hne
    simpa using this
  obtain ⟨g1, g2, t, hbd⟩ : ∃ g1 g2 t, by_doc cands = g1 :: g2 :: t := by
    match hby : by_doc cands with
    | [] => rw [hby] at hlen2; simp at hlen2
    | [g] => rw [hby] at hlen2; simp at hlen2
    | g1 :: g2 :: t => exact ⟨g1, g2, t, rfl⟩
  have hg1mem : g1 ∈ by_doc cands := by rw [hbd]; exact List.mem_cons_self _ _
  have hg2mem : g2 ∈ by_doc cands := by
    rw [hbd]; exact List.mem_cons_of_mem _ (List.mem_cons_self _ _)
  have hkeysne : g1.1 ≠ g2.1 := by
    have hnd := by_doc_keys_nodup cands
    rw [hbd] at hnd
    simp only [List.map_cons, List.nodup_cons, List.mem_cons] at hnd
    intro heq
    exact hnd.1 (Or.inl heq)
  -- the balanced round starts with the contributions of the first two groups
  have hbal : balancedRound cands perDoc
      = g1.2.take perDoc ++ (g2.2.take perDoc ++
          t.flatMap (fun g => g.2.take perDoc)) := by
    unfold balancedRound
    rw [hbd]
    simp [List.flatMap_cons]
  set a := g1.2.take perDoc with ha_def
  set b := g2.2.take perDoc with hb_def
  have hane : a ≠ [] := take_ne_nil_of_pos hp (by_doc_groups_ne_nil cands g1 hg1mem)
  have hbne : b ≠ [] := take_ne_nil_of_pos hp (by_doc_groups_ne_nil cands g2 hg2mem)
  have hla : a.length ≤ perDoc := by simp [ha_def, List.length_take]
  have hlb : b.length ≤ perDoc := by simp [hb_def, List.length_take]
  -- the `take k` of the balanced list keeps both contributions whole
  have htake : (balancedRound cands perDoc).take k
      = a ++ (b ++ (t.flatMap (fun g => g.2.take perDoc)).take (k - a.length - b.length)) := by
    rw [hbal, List.take_append_eq_append_take, List.take_append_eq_append_take]
    rw [List.take_of_length_le (by omega : a.length ≤ k)]
    rw [List.take_of_length_le (by omega : b.length ≤ k - a.length)]
  obtain ⟨t3, hfin⟩ := finalOf_eq_take_append k (balancedRound cands perDoc)
    (restOf cands (balancedRound cands perDoc))
  rw [htake] at hfin
  obtain ⟨x1, a', hxa⟩ := List.exists_cons_of_ne_nil hane
  obtain ⟨x2, b', hxb⟩ := List.exists_cons_of_ne_nil hbne
  have hx1a : x1 ∈ a := by rw [hxa]; exact List.mem_cons_self _ _
  have hx2b : x2 ∈ b := by rw [hxb]; exact List.mem_cons_self _ _
  have hx1key : docKey x1 = g1.1 :=
    by_doc_member_key cands g1 hg1mem x1
      ((List.take_sublist perDoc g1.2).subset (ha_def ▸ hx1a))
  have hx2key : docKey x2 = g2.1 :=
    by_doc_member_key cands g2 hg2mem x2
      ((List.take_sublist perDoc g2.2).subset (hb_def ▸ hx2b))
  set final := finalOf k (balancedRound cands perDoc)
    (restOf cands (balancedRound cands perDoc)) with hfinal_def
  have hx1fin : x1 ∈ final := by
    rw [hfin]
    exact List.mem_append_left _ (List.mem_append_left _ hx1a)
  have hx2fin : x2 ∈ final := by
    rw [hfin]
    exact List.mem_append_left _ (List.mem_append_right _ (List.mem_append_left _ hx2b))
  obtain ⟨y1, hy1, hy1k⟩ := dedupGo_rep [] final x1 hx1fin (by simp)
  obtain ⟨y2, hy2, hy2k⟩ := dedupGo_rep [] final x2 hx2fin (by simp)
  rw [← retrieve_eq_dedup cands k perDoc] at hy1 hy2
  refine ⟨y1, hy1, y2, hy2, ?_⟩
  rw [docKey_eq_of_chunkKey_eq hy1k, docKey_eq_of_chunkKey_eq hy2k, hx1key, hx2key]
  exact hkeysne

/-- A concrete candidate from document `a.pdf`, used by the C2 witness. -/
def wCand1 : Cand := ⟨"t1", some "a.pdf", some "1", some 1, some 0, some "h1"⟩

/-- A concrete candidate from document `b.pdf`, used by the C2 witness. -/
def wCand2 : Cand := ⟨"t2", some "b.pdf", some "1", some 1, some 0, some "h2"⟩

/-- A concrete two-document candidate list, used by the C2 witness. -/
def wCands : List Cand := [wCand1, wCand2]

/-- Witness for C2 at a concrete two-document candidate list with
`k = 2`, `per_doc = 1`. -/
theorem retrieve_context_balanced_multi_doc_witness :
    wCand1 ∈ wCands ∧ wCand2 ∈ wCands ∧ docKey wCand1 ≠ docKey wCand2 ∧
    1 ≤ 1 ∧ 2 * 1 ≤ 2 ∧
    (∃ d1 ∈ retrieve_context_balanced wCands 2 1,
      ∃ d2 ∈ retrieve_context_balanced wCands 2 1, docKey d1 ≠ docKey d2) := by
  refine ⟨by decide, by decide, by decide, by decide, by decide, ?_⟩
  exact retrieve_context_balanced_multi_doc wCands 2 1 wCand1 wCand2
    (by decide) (by decide) (by decide) (by decide) (by decide)

/-! ## Ingestion: whitespace normalization (`backend/app/ingestion.py`)

`_normalize_whitespace` performs, in order: `text.replace("\r", "\n")`,
`re.sub(r"[ \t]+", " ", text)`, `re.sub(r"\n{3,}", "\n\n", text)`,
`text.strip()`.  Text is modelled as `List Char`; `strip` removes the
ASCII whitespace characters Python's `str.strip` removes. -/

/-- Space or tab, the character class of `[ \t]+`. -/
def isST (c : Char) : Bool := c == ' ' || c == '\t'

/-- Newline, the character class of `\n{3,}`. -/
def isNL (c : Char) : Bool := c == '\n'

/-- The ASCII whitespace characters removed by Python `str.strip()`. -/
def isPySpace (c : Char) : Bool :=
  c == ' ' || c == '\t' || c == '\n' || c == '\r' || c == '\x0b' || c == '\x0c'

/-- `text.replace("\r", "\n")` (ingestion.py line 22): every carriage
return becomes a newline, independently of what follows it. -/
def replaceCR (l : List Char) : List Char :=
  l.map (fun c => if c = '\r' then '\n' else c)

/-- `re.sub(r"[ \t]+", " ", text)` (line 23) as a left-to-right scan; the
flag records whether a run of spaces/tabs is pending. -/
def collapseSTGo : Bool → List Char → List Char
  | b, [] => if b then [' '] else []
  | b, c :: cs =>
    if isST c then collapseSTGo true cs
    else (if b then [' '] else []) ++ c :: collapseSTGo false cs

def collapseST (l : List Char) : List Char := collapseSTGo false l

/-- Emission of a pending newline run: runs of one or two newlines are
kept, longer runs become exactly two (`\n{3,}` → `\n\n`). -/
def emitNL (n : Nat) : List Char := List.replicate (min n 2) '\n'

/-- `re.sub(r"\n{3,}", "\n\n", text)` (line 24) as a scan; `n` counts the
pending newline run. -/
def collapseNLGo : Nat → List Char → List Char
  | n, [] => emitNL n
  | n, c :: cs =>
    if isNL c then collapseNLGo (n + 1) cs
    else emitNL n ++ c :: collapseNLGo 0 cs

/-- `text.strip()` (line 25). -/
def pyStrip (l : List Char) : List Char :=
  ((l.dropWhile isPySpace).reverse.dropWhile isPySpace).reverse

/-- `_normalize_whitespace` (ingestion.py lines 20-25). -/
def _normalize_whitespace (l : List Char) : List Char :=
  pyStrip (collapseNLGo 0 (collapseST (replaceCR l)))

/-! ### The claim-side and amended-side normalizations

These follow the words of the claim rather than the source: the collapse
steps are written run-at-a-time with `takeWhile`/`dropWhile`, and the
line-ending step of `normalizeClaimed` maps each variant (`\r\n`, `\r`,
`\n`) to one `\n`, as the claim asserts. -/

theorem length_dropWhile_le {α : Type} (p : α → Bool) (l : List α) :
    (l.dropWhile p).length ≤ l.length := by
  induction l with
  | nil => simp
  | cons c cs ih =>
    rw [List.dropWhile_cons]
    by_cases h : p c = true
    · rw [if_pos h]
      exact Nat.le_succ_of_le ih
    · rw [if_neg h]

/-- The claim's line-ending step: `\r\n`, `\r` and `\n` each become a
single `\n`. -/
def lineEndingsClaim : List Char → List Char
  | [] => []
  | '\r' :: '\n' :: cs => '\n' :: lineEndingsClaim cs
  | '\r' :: cs => '\n' :: lineEndingsClaim cs
  | c :: cs => c :: lineEndingsClaim cs

/-- Run-based collapse of space/tab runs: each maximal run becomes one
space. -/
def collapseSTSpec (l : List Char) : List Char :=
  match l with
  | [] => []
  | c :: cs =>
    if isST c then ' ' :: collapseSTSpec (cs.dropWhile isST)
    else c :: collapseSTSpec cs
termination_by l.length
decreasing_by
  · simp only [List.length_cons]
    exact Nat.lt_succ_of_le (length_dropWhile_le isST cs)
  · simp

/-- Run-based collapse of newline runs: a maximal run of `r` newlines
becomes `min r 2` newlines (runs of three or more become exactly two). -/
def collapseNLSpec (l : List Char) : List Char :=
  match l with
  | [] => []
  | c :: cs =>
    if isNL c then
      List.replicate (min (1 + (cs.takeWhile isNL).length) 2) '\n'
        ++ collapseNLSpec (cs.dropWhile isNL)
    else c :: collapseNLSpec cs
termination_by l.length
decreasing_by
  · simp only [List.length_cons]
    exact Nat.lt_succ_of_le (length_dropWhile_le isNL cs)
  · simp

/-- The claim's normalization, per its words: every line-ending variant
becomes one newline, space/tab runs become one space, 3+ newline runs
become two, ends trimmed. -/
def normalizeClaimed (l : List Char) : List Char :=
  pyStrip (collapseNLSpec (collapseSTSpec (lineEndingsClaim l)))

/-- The amended normalization: every `\r` becomes `\n` (so `\r\n` yields
two newlines); the remaining steps as the claim states them. -/
def normalizeAmended (l : List Char) : List Char :=
  pyStrip (collapseNLSpec (collapseSTSpec (replaceCR l)))

/-! ### Equivalence of the scans with the run-based collapses -/

theorem collapseSTGo_true (l : List Char) :
    collapseSTGo true l = ' ' :: collapseSTGo false (l.dropWhile isST) := by
  induction l with
  | nil => rfl
  | cons c cs ih =>
    by_cases h : isST c = true
    · rw [collapseSTGo, if_pos h, List.dropWhile_cons, if_pos h]
      exact ih
    · rw [collapseSTGo, if_neg h, List.dropWhile_cons, if_neg h,
        collapseSTGo, if_neg h]
      rfl

theorem collapseST_eq_spec_aux :
    ∀ (n : Nat) (l : List Char), l.length ≤ n →
      collapseSTGo false l = collapseSTSpec l := by
  intro n
  induction n with
  | zero =>
    intro l h
    rw [List.length_eq_zero.mp (Nat.le_zero.mp h)]
    simp [collapseSTGo, collapseSTSpec]
  | succ n ih =>
    intro l h
    match l with
    | [] => simp [collapseSTGo, collapseSTSpec]
    | c :: cs =>
      by_cases hc : isST c = true
      · rw [collapseSTGo, if_pos hc, collapseSTGo_true, collapseSTSpec, if_pos hc]
        have hlen : (cs.dropWhile isST).length ≤ n := by
          have h1 := length_dropWhile_le isST cs
          simp only [List.length_cons] at h
          omega
        rw [ih (cs.dropWhile isST) hlen]
      · rw [collapseSTGo, if_neg hc, collapseSTSpec, if_neg hc]
        have hlen : cs.length ≤ n := by
          simp only [List.length_cons] at h
          omega
        rw [ih cs hlen]
        rfl

theorem collapseST_eq_spec (l : List Char) : collapseST l = collapseSTSpec l :=
  collapseST_eq_spec_aux l.length l le_rfl

/-- The tail emitted by the newline scan after a (possibly empty) leading
newline run has been consumed. -/
def nlTail : List Char → List Char
  | [] => []
  | c :: cs => c :: collapseNLGo 0 cs

theorem collapseNLGo_structure (l : List Char) :
    ∀ n, collapseNLGo n l
      = emitNL (n + (l.takeWhile isNL).length) ++ nlTail (l.dropWhile isNL) := by
  induction l with
  | nil => intro n; simp [collapseNLGo, nlTail]
  | cons c cs ih =>
    intro n
    by_cases hc : isNL c = true
    · rw [collapseNLGo, if_pos hc, List.takeWhile_cons, if_pos hc,
        List.dropWhile_cons, if_pos hc, ih (n + 1)]
      have harith : n + 1 + (cs.takeWhile isNL).length
          = n + (cs.takeWhile isNL).length.succ := by omega
      rw [harith]
      rfl
    · rw [collapseNLGo, if_neg hc, List.takeWhile_cons, if_neg hc,
        List.dropWhile_cons, if_neg hc]
      simp [nlTail]

theorem dropWhile_head_not {α : Type} (p : α → Bool) :
    ∀ (l : List α) (x : α) (xs : List α), l.dropWhile p = x :: xs → p x = false := by
  intro l
  induction l with
  | nil => intro x xs h; simp at h
  | cons c cs ih =>
    intro x xs h
    rw [List.dropWhile_cons] at h
    by_cases hc : p c = true
    · rw [if_pos hc] at h
      exact ih x xs h
    · rw [if_neg hc] at h
      cases h
      simpa using hc

theorem collapseNL_eq_spec_aux :
    ∀ (n : Nat) (l : List Char), l.length ≤ n →
      collapseNLGo 0 l = collapseNLSpec l := by
  intro n
  induction n with
  | zero =>
    intro l h
    rw [List.length_eq_zero.mp (Nat.le_zero.mp h)]
    simp [collapseNLGo, collapseNLSpec, emitNL]
  | succ n ih =>
    intro l h
    match l with
    | [] => simp [collapseNLGo, collapseNLSpec, emitNL]
    | c :: cs =>
      by_cases hc : isNL c = true
      · rw [collapseNLGo_structure (c :: cs) 0, List.takeWhile_cons, if_pos hc,
          List.dropWhile_cons, if_pos hc, collapseNLSpec, if_pos hc]
        have harith : 0 + (c :: cs.takeWhile isNL).length
            = 1 + (cs.takeWhile isNL).length := by
          simp only [List.length_cons]
          omega
        rw [harith]
        unfold emitNL
        congr 1
        match hdw : cs.dropWhile isNL with
        | [] => simp [nlTail, collapseNLSpec]
        | x :: xs =>
          have hx : isNL x = false := dropWhile_head_not isNL cs x xs hdw
          rw [nlTail, collapseNLSpec, if_neg (by simp [hx])]
          have hlen : xs.length ≤ n := by
            have h1 : (cs.dropWhile isNL).length ≤ cs.length :=
              length_dropWhile_le isNL cs
            rw [hdw] at h1
            simp only [List.length_cons] at h h1
            omega
          rw [ih xs hlen]
      · rw [collapseNLGo, if_neg hc, collapseNLSpec, if_neg hc]
        have hlen : cs.length ≤ n := by
          simp only [List.length_cons] at h
          omega
        rw [ih cs hlen]
        rfl

theorem collapseNL_eq_spec (l : List Char) : collapseNLGo 0 l = collapseNLSpec l :=
  collapseNL_eq_spec_aux l.length l le_rfl

/-- C3 counterexample: on `"a\r\nb"` the code yields `"a\n\nb"` — the
`\r\n` becomes two newlines because `replace("\r", "\n")` runs before
anything pairs the CR with the LF — while the claim's reading (every
line-ending variant becomes a single newline) yields `"a\nb"`. -/
theorem normalize_whitespace_claim_counterexample :
    _normalize_whitespace "a\r\nb".toList = "a\n\nb".toList ∧
    normalizeClaimed "a\r\nb".toList = "a\nb".toList ∧
    _normalize_whitespace "a\r\nb".toList ≠ normalizeClaimed "a\r\nb".toList := by
  have heval : normalizeClaimed "a\r\nb".toList
      = pyStrip (collapseNLGo 0 (collapseST (lineEndingsClaim "a\r\nb".toList))) := by
    unfold normalizeClaimed
    rw [← collapseST_eq_spec, ← collapseNL_eq_spec]
  refine ⟨by decide, ?_, ?_⟩
  · rw [heval]
    decide
  · rw [heval]
    decide

/-- C3 amended: `_normalize_whitespace` replaces every `\r` with `\n` (so
`\r\n` becomes two newlines), collapses every space/tab run to a single
space, collapses every run of 3+ newlines to exactly two, and trims
leading and trailing whitespace — it equals the run-based normalization
built from those words, on every input. -/
theorem normalize_whitespace_amended (l : List Char) :
    _normalize_whitespace l = normalizeAmended l := by
  unfold _normalize_whitespace normalizeAmended
  rw [collapseST_eq_spec, collapseNL_eq_spec]

/-! ## Ingestion: chunk construction (`backend/app/ingestion.py`)

`extract_pages` enumerates the pages the external PDF reader yields
(`page.extract_text() or ""`, empty on failure), 1-based, and normalizes
each page's text.  `build_chunks_from_pdf` runs the page loop with the
external text splitter (`RecursiveCharacterTextSplitter.split_text`),
passed here as the parameter `split`. -/

/-- One metadata record per chunk (ingestion.py lines 126-133). -/
structure ChunkMeta where
  source : String
  doc_hash : String
  doc_id : String
  page : Option Nat
  pages : String
  chunk_id : Nat
deriving DecidableEq

/-- `doc_hash[:12]` (ingestion.py line 117). -/
def doc_id_of (doc_hash : String) : String := String.mk (doc_hash.toList.take 12)

/-- The `for i, page in enumerate(reader.pages)` loop of `extract_pages`
(ingestion.py lines 52-59): 1-based page numbers, normalized text. -/
def extractGo : Nat → List (List Char) → List (Nat × List Char)
  | _, [] => []
  | i, t :: ts => (i + 1, _normalize_whitespace t) :: extractGo (i + 1) ts

/-- `extract_pages` (ingestion.py lines 27-59), from the raw per-page
texts the external reader produces. -/
def extract_pages (rawPages : List (List Char)) : List (Nat × List Char) :=
  extractGo 0 rawPages

/-- The inner `for ch in chunks` loop (ingestion.py lines 124-134): one
metadata record per chunk, `local_chunk_id` incremented once per chunk. -/
def chunkMetasGo (fn dh di : String) (pn : Nat) :
    List (List Char) → Nat → List ChunkMeta
  | [], _ => []
  | _ :: chs, cnt =>
    ⟨fn, dh, di, some pn, toString pn, cnt⟩ :: chunkMetasGo fn dh di pn chs (cnt + 1)

/-- The page loop (ingestion.py lines 120-134): pages with empty text are
skipped; the chunk counter carries across pages. -/
def buildLoop (split : List Char → List (List Char)) (fn dh di : String) :
    List (Nat × List Char) → Nat → List (List Char) × List ChunkMeta
  | [], _ => ([], [])
  | (pn, txt) :: rest, cnt =>
    if txt = [] then buildLoop split fn dh di rest cnt
    else
      let chunks := split txt
      let r := buildLoop split fn dh di rest (cnt + chunks.length)
      (chunks ++ r.1, chunkMetasGo fn dh di pn chunks cnt ++ r.2)

/-- `build_chunks_from_pdf` (ingestion.py lines 87-148): run the page
loop; if no chunk was produced, emit the single placeholder record. -/
def build_chunks_from_pdf (split : List Char → List (List Char))
    (rawPages : List (List Char)) (filename doc_hash : String) :
    List (List Char) × List ChunkMeta :=
  let di := doc_id_of doc_hash
  let r := buildLoop split filename doc_hash di (extract_pages rawPages) 0
  if r.1 = [] then ([[]], [⟨filename, doc_hash, di, none, "", 0⟩])
  else r

/-! ### Dense chunk ids (C4) -/

theorem chunkMetasGo_map_id (fn dh di : String) (pn : Nat) :
    ∀ (chs : List (List Char)) (cnt : Nat),
      (chunkMetasGo fn dh di pn chs cnt).map ChunkMeta.chunk_id
        = List.range' cnt chs.length := by
  intro chs
  induction chs with
  | nil => intro cnt; rfl
  | cons ch chs ih =>
    intro cnt
    simp only [chunkMetasGo, List.map_cons, List.length_cons, List.range'_succ]
    rw [ih (cnt + 1)]

theorem chunkMetasGo_length (fn dh di : String) (pn : Nat) :
    ∀ (chs : List (List Char)) (cnt : Nat),
      (chunkMetasGo fn dh di pn chs cnt).length = chs.length := by
  intro chs
  induction chs with
  | nil => intro cnt; rfl
  | cons ch chs ih =>
    intro cnt
    simp only [chunkMetasGo, List.length_cons]
    rw [ih (cnt + 1)]

theorem range'_append_add : ∀ (a s b : Nat),
    List.range' s a ++ List.range' (s + a) b = List.range' s (a + b) := by
  intro a
  induction a with
  | zero => intro s b; simp
  | succ a ih =>
    intro s b
    have h1 : s + (a + 1) = (s + 1) + a := by omega
    have h2 : a + 1 + b = (a + b) + 1 := by omega
    rw [List.range'_succ, h1, h2, List.range'_succ, List.cons_append, ih (s + 1) b]

theorem buildLoop_map_chunk_id (split : List Char → List (List Char)) (fn dh di : String) :
    ∀ (pages : List (Nat × List Char)) (cnt : Nat),
      ((buildLoop split fn dh di pages cnt).2).map ChunkMeta.chunk_id
        = List.range' cnt ((buildLoop split fn dh di pages cnt).2).length := by
  intro pages
  induction pages with
  | nil => intro cnt; rfl
  | cons p rest ih =>
    intro cnt
    obtain ⟨pn, txt⟩ := p
    by_cases h : txt = []
    · simp only [buildLoop, if_pos h]
      exact ih cnt
    · simp only [buildLoop, if_neg h]
      rw [List.map_append, chunkMetasGo_map_id, ih (cnt + (split txt).length),
        List.length_append, chunkMetasGo_length]
      exact range'_append_add (split txt).length cnt _

theorem buildLoop_lengths (split : List Char → List (List Char)) (fn dh di : String) :
    ∀ (pages : List (Nat × List Char)) (cnt : Nat),
      ((buildLoop split fn dh di pages cnt).1).length
        = ((buildLoop split fn dh di pages cnt).2).length := by
  intro pages
  induction pages with
  | nil => intro cnt; rfl
  | cons p rest ih =>
    intro cnt
    obtain ⟨pn, txt⟩ := p
    by_cases h : txt = []
    · simp only [buildLoop, if_pos h]
      exact ih cnt
    · simp only [buildLoop, if_neg h]
      rw [List.length_append, List.length_append, chunkMetasGo_length,
        ih (cnt + (split txt).length)]

/-- C4: when the pages yield at least one chunk in total, the metadata
records of `build_chunks_from_pdf` carry `chunk_id` values that are
exactly `0..M-1` in order (no gaps, no repeats, the counter carried
across pages and not reset), with `M` the total number of chunks. -/
theorem build_chunks_chunk_ids_dense (split : List Char → List (List Char))
    (rawPages : List (List Char)) (fn dh : String)
    (h : (buildLoop split fn dh (doc_id_of dh) (extract_pages rawPages) 0).1 ≠ []) :
    ((build_chunks_from_pdf split rawPages fn dh).2).map ChunkMeta.chunk_id
        = List.range ((build_chunks_from_pdf split rawPages fn dh).2).length ∧
      ((build_chunks_from_pdf split rawPages fn dh).1).length
        = ((build_chunks_from_pdf split rawPages fn dh).2).length := by
  have hb : build_chunks_from_pdf split rawPages fn dh
      = buildLoop split fn dh (doc_id_of dh) (extract_pages rawPages) 0 := by
    simp only [build_chunks_from_pdf, if_neg h]
  rw [hb, List.range_eq_range']
  exact ⟨buildLoop_map_chunk_id split fn dh (doc_id_of dh) (extract_pages rawPages) 0,
    buildLoop_lengths split fn dh (doc_id_of dh) (extract_pages rawPages) 0⟩

/-- The identity chunker used by the ingestion witnesses. -/
def wSplit : List Char → List (List Char) := fun t => [t]

/-- Raw page texts with a middle page of no extractable text, used by the
C4 witness. -/
def wRaw : List (List Char) := ["a".toList, [], "b".toList]

/-- Witness for C4: three pages, the middle one empty, yield chunk ids
`[0, 1]`. -/
theorem build_chunks_chunk_ids_dense_witness :
    (buildLoop wSplit "f.pdf" "hash" (doc_id_of "hash") (extract_pages wRaw) 0).1 ≠ [] ∧
    (((build_chunks_from_pdf wSplit wRaw "f.pdf" "hash").2).map ChunkMeta.chunk_id
        = List.range ((build_chunks_from_pdf wSplit wRaw "f.pdf" "hash").2).length ∧
      ((build_chunks_from_pdf wSplit wRaw "f.pdf" "hash").1).length
        = ((build_chunks_from_pdf wSplit wRaw "f.pdf" "hash").2).length) :=
  ⟨by decide, build_chunks_chunk_ids_dense wSplit wRaw "f.pdf" "hash" (by decide)⟩

/-! ### Empty-document placeholder (C5) -/

theorem buildLoop_all_empty (split : List Char → List (List Char)) (fn dh di : String) :
    ∀ (pages : List (Nat × List Char)), (∀ p ∈ pages, p.2 = []) →
      ∀ cnt, buildLoop split fn dh di pages cnt = ([], []) := by
  intro pages
  induction pages with
  | nil => intro _ cnt; rfl
  | cons p rest ih =>
    intro h cnt
    obtain ⟨pn, txt⟩ := p
    have htxt : txt = [] := h (pn, txt) (List.mem_cons_self _ _)
    simp only [buildLoop, if_pos htxt]
    exact ih (fun q hq => h q (List.mem_cons_of_mem _ hq)) cnt

theorem extractGo_snd (rawPages : List (List Char)) :
    ∀ (i : Nat) (p : Nat × List Char), p ∈ extractGo i rawPages →
      ∃ t ∈ rawPages, p.2 = _normalize_whitespace t := by
  induction rawPages with
  | nil => intro i p hp; cases hp
  | cons t ts ih =>
    intro i p hp
    rcases List.mem_cons.mp hp with rfl | hmem
    · exact ⟨t, List.mem_cons_self _ _, rfl⟩
    · obtain ⟨t', ht', heq⟩ := ih (i + 1) p hmem
      exact ⟨t', List.mem_cons_of_mem _ ht', heq⟩

/-- C5: when every page's extracted text normalizes to empty (the
document yields zero chunks), `build_chunks_from_pdf` returns exactly
one placeholder record: empty text, `page = null`, `pages = ""`,
`chunk_id = 0`, carrying the filename, `doc_hash` and derived `doc_id`. -/
theorem build_chunks_empty_placeholder (split : List Char → List (List Char))
    (rawPages : List (List Char)) (fn dh : String)
    (h : ∀ t ∈ rawPages, _normalize_whitespace t = []) :
    build_chunks_from_pdf split rawPages fn dh
      = ([[]], [⟨fn, dh, doc_id_of dh, none, "", 0⟩]) := by
  have hp : ∀ p ∈ extract_pages rawPages, p.2 = [] := by
    intro p hmem
    obtain ⟨t, ht, heq⟩ := extractGo_snd rawPages 0 p hmem
    rw [heq]
    exact h t ht
  have hloop := buildLoop_all_empty split fn dh (doc_id_of dh)
    (extract_pages rawPages) hp 0
  simp only [build_chunks_from_pdf, hloop, if_true]

/-- Raw page texts (one all-blank page, one extraction failure) used by
the C5 witness. -/
def wRawEmpty : List (List Char) := [" ".toList, []]

/-- Witness for C5: a document whose pages all normalize to empty text
yields the single placeholder record. -/
theorem build_chunks_empty_placeholder_witness :
    (∀ t ∈ wRawEmpty, _normalize_whitespace t = []) ∧
    build_chunks_from_pdf wSplit wRawEmpty "scan.pdf" "deadbeefdeadbeef"
      = ([[]], [⟨"scan.pdf", "deadbeefdeadbeef", doc_id_of "deadbeefdeadbeef",
          none, "", 0⟩]) :=
  ⟨by decide,
    build_chunks_empty_placeholder wSplit wRawEmpty "scan.pdf" "deadbeefdeadbeef"
      (by decide)⟩

/-! ## Configuration and paths (`backend/app/config.py`) -/

/-- Default `CHROMA_BASE_DIR` (config.py line 35). -/
def CHROMA_BASE_DIR : String := "/app/data/chroma"

/-- POSIX `os.path.join(a, b)` for one join: an absolute second component
replaces the first; otherwise a slash separates them unless the first is
empty or already slash-terminated. -/
def pathJoin (a b : List Char) : List Char :=
  match b with
  | '/' :: _ => b
  | _ => if a = [] ∨ a.getLast? = some '/' then a ++ b else a ++ '/' :: b

/-- `corpus_dir` (config.py lines 40-52): the unvalidated join of the
base directory and the corpus id. -/
def corpus_dir (corpus_id : String) : String :=
  String.mk (pathJoin CHROMA_BASE_DIR.toList corpus_id.toList)

/-- Split a path on `/` into segments. -/
def splitSlashGo (cur : List Char) : List Char → List (List Char)
  | [] => [cur.reverse]
  | c :: cs =>
    if c = '/' then cur.reverse :: splitSlashGo [] cs
    else splitSlashGo (c :: cur) cs

def splitSlash (l : List Char) : List (List Char) := splitSlashGo [] l

/-- Modelled from POSIX path resolution for absolute paths: `.` and empty
segments vanish, `..` pops one segment (staying at the root when there is
nothing to pop). -/
def resolveSegs (stack : List (List Char)) : List (List Char) → List (List Char)
  | [] => stack.reverse
  | s :: rest =>
    if s = [] ∨ s = ['.'] then resolveSegs stack rest
    else if s = ['.', '.'] then resolveSegs stack.tail rest
    else resolveSegs (s :: stack) rest

def joinSegs (segs : List (List Char)) : List Char :=
  segs.foldl (fun acc s => acc ++ '/' :: s) []

/-- Canonical form of an absolute path. -/
def resolvePath (p : List Char) : List Char :=
  joinSegs (resolveSegs [] (splitSlash p))

/-! ## Store (`backend/app/store.py`) -/

/-- The externally observable steps of `upsert_texts`, in order. -/
inductive UpsertEvent
  | embedInit
  | fromTexts (texts : List String) (metadatas : List ChunkMeta) (dir : String)
  | persist
  | reject
deriving DecidableEq

/-- `upsert_texts` (store.py lines 48-67) as the trace of the calls it
makes: it builds the embedding provider (`_embedding_fn`), hands all
texts and metadatas to the external `Chroma.from_texts`, and persists.
The body contains no validation branch, so `reject` never occurs. -/
def upsert_texts (corpus_id : String) (texts : List String)
    (metadatas : List ChunkMeta) : List UpsertEvent :=
  [.embedInit, .fromTexts texts metadatas (corpus_dir corpus_id), .persist]

/-- C6 counterexample: at `texts = ["a"]`, `metadatas = []` the lengths
differ, yet `upsert_texts` rejects nothing and still hands all texts to
the embedding-equipped `from_texts` call — no mismatch check runs before
the embedding provider is engaged. -/
theorem upsert_texts_no_validation_counterexample :
    (["a"] : List String).length ≠ ([] : List ChunkMeta).length ∧
    UpsertEvent.fromTexts ["a"] [] (corpus_dir "c1") ∈ upsert_texts "c1" ["a"] [] ∧
    UpsertEvent.reject ∉ upsert_texts "c1" ["a"] [] :=
  ⟨by decide, by decide, by decide⟩

/-- C6 amended: `upsert_texts` performs no length validation — on every
mismatched call it unconditionally constructs the embedding provider,
passes all texts and metadatas to the external vector store's
`from_texts`, and persists; any rejection happens inside the external
library, not in this function. -/
theorem upsert_texts_unconditional (cid : String) (texts : List String)
    (metadatas : List ChunkMeta) (_mismatch : texts.length ≠ metadatas.length) :
    upsert_texts cid texts metadatas
      = [.embedInit, .fromTexts texts metadatas (corpus_dir cid), .persist] ∧
    UpsertEvent.reject ∉ upsert_texts cid texts metadatas :=
  ⟨rfl, by simp [upsert_texts]⟩

/-- Witness for the amended C6 at a concrete mismatched call. -/
theorem upsert_texts_unconditional_witness :
    (["a"] : List String).length ≠ ([] : List ChunkMeta).length ∧
    (upsert_texts "c2" ["a"] []
        = [.embedInit, .fromTexts ["a"] [] (corpus_dir "c2"), .persist] ∧
      UpsertEvent.reject ∉ upsert_texts "c2" ["a"] []) :=
  ⟨by decide, upsert_texts_unconditional "c2" ["a"] [] (by decide)⟩

/-! ## Answer synthesis (`backend/app/qa.py`) -/

/-- External calls `answer` can make.  `retrievalCall` stands for the
`retrieve_context_balanced` call, whose `get_db` constructs the embedding
provider — so a trace without it also means no embedding call. -/
inductive QaEvent
  | retrievalCall
  | llmCall
deriving DecidableEq

/-- The fixed demo answer of `MOCK_MODE` (qa.py line 132). -/
def demoAnswer : String :=
  "Modo demo: respuesta simulada. Integraremos LLM real cuando desactives MOCK_MODE."

/-- The fixed demo context of `MOCK_MODE` (qa.py line 133); the dict has
no `page` or `doc_hash` keys, read back as `None`. -/
def demoCtx : List Cand :=
  [⟨"Fragmento simulado", some "demo.pdf", some "1-2", none, some 0, none⟩]

/-- The fixed no-information answer (qa.py line 139). -/
def noInfoMsg : String :=
  "No encuentro información relevante en los documentos cargados."

/-- Python `str(...)` of an optional string inside an f-string. -/
def optStr : Option String → String
  | none => "None"
  | some s => s

/-- One labeled context block `[source | pages]` then the text
(qa.py line 148). -/
def candBlock (c : Cand) : String :=
  "[" ++ optStr c.source ++ " | " ++ optStr c.pages ++ "]\n" ++ c.text

def context_str (ctx : List Cand) : String :=
  String.intercalate "\n\n" (ctx.map candBlock)

/-- The instruction template of `answer` (qa.py lines 149-165). -/
def buildPrompt (question : String) (ctx : List Cand) : String :=
  "Eres un asistente experto en análisis de documentos PDF. "
    ++ "Debes trabajar EXCLUSIVAMENTE con el contexto entregado. "
    ++ "Si la información solicitada no está en el contexto, indícalo de forma clara.\n\n"
    ++ "Tu respuesta debe ser clara, natural y estructurada, evitando frases robóticas. "
    ++ "Adapta tu estilo según el tipo de solicitud:\n"
    ++ "- Si se pide un RESUMEN: entrega un texto breve, coherente y fácil de leer.\n"
    ++ "- Si se pide una COMPARACIÓN entre documentos: organiza las diferencias y similitudes en párrafos o viñetas.\n"
    ++ "- Si se pide una CLASIFICACIÓN o agrupación por temas: genera categorías con títulos claros y lista los elementos bajo cada una.\n\n"
    ++ "=== CONTEXTO DISPONIBLE ===\n" ++ context_str ctx ++ "\n\n"
    ++ "=== PREGUNTA ===\n" ++ question ++ "\n\n"
    ++ "Al final de tu respuesta, incluye siempre 2–4 citas de apoyo en el formato: "
    ++ "(Documento: <nombre>, páginas: X–Y)."

/-- `answer` (qa.py lines 115-170): the `(answer, context)` pair plus the
trace of external calls.  The similarity search inside the retrieval is
the parameter `search`; the completion provider is `llm`; `mockMode` is
the `MOCK_MODE` configuration value (config.py line 38).  The code calls
`retrieve_context_balanced(corpus_id, question)` with its defaults
`k = 8`, `per_doc = 1`. -/
def answer (mockMode : Bool) (search : String → String → List Cand)
    (llm : String → String) (corpus_id question : String) :
    (String × List Cand) × List QaEvent :=
  if mockMode then ((demoAnswer, demoCtx), [])
  else
    let ctx := retrieve_context_balanced (search corpus_id question) 8 1
    if ctx = [] then ((noInfoMsg, []), [.retrievalCall])
    else ((llm (buildPrompt question ctx), ctx), [.retrievalCall, .llmCall])

/-- C7: with `MOCK_MODE` off and an empty retrieved candidate list,
`answer` returns the fixed no-information message with an empty candidate
list, and the completion provider is never invoked. -/
theorem answer_empty_context (search : String → String → List Cand)
    (llm : String → String) (cid q : String)
    (h : retrieve_context_balanced (search cid q) 8 1 = []) :
    answer false search llm cid q = ((noInfoMsg, []), [QaEvent.retrievalCall]) ∧
    QaEvent.llmCall ∉ (answer false search llm cid q).2 := by
  have h1 : answer false search llm cid q = ((noInfoMsg, []), [QaEvent.retrievalCall]) := by
    simp [answer, h]
  refine ⟨h1, ?_⟩
  rw [h1]
  decide

/-- The similarity search of a freshly created, never-ingested corpus. -/
def wSearchEmpty : String → String → List Cand := fun _ _ => []

/-- A stand-in completion provider for the answer witnesses. -/
def wLlm : String → String := fun _ => "llm-answer"

/-- Witness for C7 at the empty search. -/
theorem answer_empty_context_witness :
    retrieve_context_balanced (wSearchEmpty "c1" "q") 8 1 = [] ∧
    (answer false wSearchEmpty wLlm "c1" "q" = ((noInfoMsg, []), [QaEvent.retrievalCall]) ∧
      QaEvent.llmCall ∉ (answer false wSearchEmpty wLlm "c1" "q").2) :=
  ⟨by decide, answer_empty_context wSearchEmpty wLlm "c1" "q" (by decide)⟩

/-- C9: with `MOCK_MODE` on, `answer` returns the fixed demo pair with an
empty call trace — no retrieval, no embedding, no completion — and its
output is independent of the corpus id, the question, and even the
configured providers. -/
theorem answer_mock_mode_constant (search srch : String → String → List Cand)
    (llm lm : String → String) (cid q cid2 q2 : String) :
    answer true search llm cid q = ((demoAnswer, demoCtx), []) ∧
    answer true search llm cid q = answer true srch lm cid2 q2 :=
  ⟨rfl, rfl⟩

/-! ## Reset endpoint (`backend/app/main.py`) -/

/-- The JSON payload `reset_corpus` returns. -/
structure ResetPayload where
  status : String
  message : String
deriving DecidableEq

/-- Filesystem model for the reset endpoint: whether a path exists, and
what `shutil.rmtree` does there (`Except.error e` models a raised
exception whose `str(e)` is `e`). -/
structure FsModel where
  pathExists : String → Bool
  rmtree : String → Except String Unit

/-- `reset_corpus` (main.py lines 176-205): the returned payload plus the
list of paths handed to `shutil.rmtree`.  The `try/except` catches any
exception and returns the soft error payload instead of raising. -/
def reset_corpus (payload_corpus_id : String) (fs : FsModel) :
    ResetPayload × List String :=
  let path := corpus_dir payload_corpus_id
  if fs.pathExists path then
    match fs.rmtree path with
    | .ok _ => (⟨"ok", "Corpus " ++ payload_corpus_id ++ " eliminado"⟩, [path])
    | .error e => (⟨"error", e⟩, [path])
  else (⟨"ok", "Corpus " ++ payload_corpus_id ++ " eliminado"⟩, [])

/-- C8: `reset_corpus` never raises — it always returns a payload whose
status is `ok` or `error`; a nonexistent corpus directory is a no-op
success; a failing physical removal is returned as the soft error payload
carrying the exception message. -/
theorem reset_corpus_total_and_soft (cid : String) (fs : FsModel) (e : String) :
    ((reset_corpus cid fs).1.status = "ok" ∨ (reset_corpus cid fs).1.status = "error") ∧
    (fs.pathExists (corpus_dir cid) = false →
      reset_corpus cid fs = (⟨"ok", "Corpus " ++ cid ++ " eliminado"⟩, [])) ∧
    (fs.pathExists (corpus_dir cid) = true →
      fs.rmtree (corpus_dir cid) = .error e →
      reset_corpus cid fs = (⟨"error", e⟩, [corpus_dir cid])) := by
  refine ⟨?_, ?_, ?_⟩
  · unfold reset_corpus
    by_cases hex : fs.pathExists (corpus_dir cid) = true
    · simp only [hex, if_true]
      match fs.rmtree (corpus_dir cid) with
      | .ok _ => exact Or.inl rfl
      | .error _ => exact Or.inr rfl
    · simp only [Bool.not_eq_true] at hex
      simp only [hex, Bool.false_eq_true, if_false]
      exact Or.inl trivial
  · intro hex
    unfold reset_corpus
    simp only [hex, Bool.false_eq_true, if_false]
  · intro hex herr
    unfold reset_corpus
    simp only [hex, if_true, herr]

/-- A filesystem in which the corpus directory is missing. -/
def wFsMissing : FsModel := ⟨fun _ => false, fun _ => .ok ()⟩

/-- A filesystem in which the directory exists but removal raises. -/
def wFsFail : FsModel := ⟨fun _ => true, fun _ => .error "Permission denied"⟩

/-- A filesystem in which every path exists and removal succeeds. -/
def wFsAll : FsModel := ⟨fun _ => true, fun _ => .ok ()⟩

/-- Witness for C8: the no-op success on a missing directory and the soft
error payload on a failing removal, at concrete inputs. -/
theorem reset_corpus_total_and_soft_witness :
    reset_corpus "c1" wFsMissing = (⟨"ok", "Corpus " ++ "c1" ++ " eliminado"⟩, []) ∧
    reset_corpus "c1" wFsFail = (⟨"error", "Permission denied"⟩, [corpus_dir "c1"]) :=
  ⟨(reset_corpus_total_and_soft "c1" wFsMissing "e").2.1 rfl,
    (reset_corpus_total_and_soft "c1" wFsFail "Permission denied").2.2 rfl rfl⟩

/-- C10: `corpus_dir` never validates the corpus id: an id with `..`
segments resolves outside `CHROMA_BASE_DIR`, an absolute id replaces the
base outright (per `os.path.join`), and `reset_corpus` hands exactly the
escaped path to the recursive delete when it exists. -/
theorem corpus_dir_escape :
    corpus_dir "../../etc" = "/app/data/chroma/../../etc" ∧
    resolvePath (corpus_dir "../../etc").toList = "/app/etc".toList ∧
    (CHROMA_BASE_DIR ++ "/").toList.isPrefixOf
        (resolvePath (corpus_dir "../../etc").toList) = false ∧
    corpus_dir "/etc/passwd" = "/etc/passwd" ∧
    (reset_corpus "../../etc" wFsAll).2 = [corpus_dir "../../etc"] :=
  ⟨by decide, by decide, by decide, by decide, by decide⟩

end CatchAI
